import Mathlib

/-!
Verification development for a content-based movie recommendation system.

The repository ships the browser frontend (`script.js`); the recommendation
engine itself (corpus build, TF-IDF vectorization, cosine-similarity matrix,
query resolution) lives behind an HTTP API whose code is not part of the
sources here, so those operations are modelled from the specification.
Frontend behaviour is embedded directly from `script.js`.

Floating-point scores are embedded as exact arithmetic: rational scores for
the serving layer (where only comparisons matter) and real numbers for the
TF-IDF / cosine computations (which involve logarithms and square roots).
-/

namespace MovieRec

/-! ### Frontend model, from `src/script.js` -/

/-- ASCII whitespace, as stripped by JavaScript's `String.prototype.trim`. -/
def isWS (c : Char) : Bool :=
  c = ' ' || c = '\t' || c = '\n' || c = '\r'

/-- The `trim()` of JavaScript strings: strip leading and trailing whitespace.
(A structurally recursive embedding of string trimming.) -/
def trimStr (s : String) : String :=
  ⟨((s.data.dropWhile isWS).reverse.dropWhile isWS).reverse⟩

/-- The `toLowerCase()` of JavaScript strings: lowercase every character. -/
def lowerStr (s : String) : String :=
  ⟨s.data.map Char.toLower⟩

/-- Substring containment on character lists: `isSub a b` holds when `a`
occurs contiguously inside `b`. -/
def isSub (a b : List Char) : Bool :=
  b.tails.any fun t => a.isPrefixOf t

/-- The observable outcome of `handleSearch` in `script.js`: either an error
message is shown, or a recommendation request is issued carrying the
`movie_name` payload. -/
inductive SearchAction where
  | showErr (msg : String)
  | request (movieName : String)
  deriving DecidableEq

/-- Model of `handleSearch` from `script.js`: trims the input; on an empty trimmed
value it shows "Please enter a movie name" and returns without any network
request; otherwise it sends the trimmed value as `movie_name`. -/
def handleSearch (input : String) : SearchAction :=
  let movieName := trimStr input
  if movieName = "" then
    SearchAction.showErr "Please enter a movie name"
  else
    SearchAction.request movieName

/-- The debounce state of the suggestion box in `script.js`: `pending` is the
query of the single scheduled (not yet fired) suggestion fetch, if any, and
`suggestions` is the currently displayed suggestion list. -/
structure UIState where
  pending : Option String
  suggestions : List String
  deriving DecidableEq

/-- The `input` event listener on `movieInput` in `script.js`: it always
cancels the pending timer (`clearTimeout`), trims the value, and either
schedules a suggestion fetch for the trimmed query (length ≥ 2) or clears
the suggestion list (length < 2). The 300 ms delay is abstracted away: a
scheduled fetch is `pending` until it fires or is cancelled. -/
def onInput (st : UIState) (value : String) : UIState :=
  let st1 : UIState := { st with pending := none }
  let query := trimStr value
  if query.length ≥ 2 then
    { st1 with pending := some query }
  else
    { st1 with suggestions := [] }

/-- Firing the debounce timer: the fetch to `/search` is issued for the
pending query, if any; this is the only way the frontend issues a
suggestion request. -/
def fireTimer (st : UIState) : UIState × Option String :=
  ({ st with pending := none }, st.pending)

/-- A server response as seen by `getRecommendations` in `script.js`:
HTTP `ok` flag, the JSON `success` flag, the optional `error` message and
the recommendation payload. -/
structure ApiResponse (α : Type) where
  ok : Bool
  success : Bool
  error : Option String
  recommendations : List α

/-- The connection-failure message thrown by the catch block of
`getRecommendations` in `script.js`. -/
def connectionErrorMessage : String :=
  "Cannot connect to server. Please ensure the backend is running."

/-- The `error.message.includes('fetch')` test of the catch block in
`script.js`: case-sensitive substring containment of "fetch". -/
def containsFetch (msg : String) : Bool :=
  isSub "fetch".toList msg.toList

/-- Model of `getRecommendations` from `script.js`: inside the try block a
non-ok response throws the server-supplied `data.error`, falling back to
"Failed to fetch recommendations", and an ok response with
`success = false` throws `data.error`, falling back to
"No recommendations found"; the catch block then rewrites any thrown error
whose message contains "fetch" — which includes the non-ok fallback
itself — to the connection-failure message before it reaches the caller. -/
def getRecommendations {α : Type} (resp : ApiResponse α) : Except String (List α) :=
  let attempt : Except String (List α) :=
    if !resp.ok then
      Except.error (resp.error.getD "Failed to fetch recommendations")
    else if !resp.success then
      Except.error (resp.error.getD "No recommendations found")
    else
      Except.ok resp.recommendations
  match attempt with
  | Except.error msg =>
    if containsFetch msg then Except.error connectionErrorMessage
    else Except.error msg
  | Except.ok recs => Except.ok recs

/-- Model of `fetchSuggestions`/`displaySuggestions` from `script.js`: when the
response has `success = true` and a non-empty `movies` list, every returned
title is rendered as a suggestion item; otherwise the list is cleared. -/
def shownSuggestions (success : Bool) (movies : List String) : List String :=
  if success && movies.length > 0 then movies else []

/-! ### Serving layer. Modelled from the spec: the backend engine
(corpus, query resolver, similarity engine) is not among the sources. -/

/-- Modelled from the spec: canonical comparison key of a title or query —
trim, then lowercase. -/
def canonical (s : String) : String :=
  lowerStr (trimStr s)

/-- Case-insensitive substring containment between strings. -/
def containsCI (hay needle : String) : Bool :=
  isSub (lowerStr needle).toList (lowerStr hay).toList

/-- Modelled from the spec: the fuzzy-match predicate of the query resolver,
step 3 — a title matches when the canonical query is a case-insensitive
substring of the title, or the title a substring of the query. -/
def titleMatch (q t : String) : Bool :=
  isSub (canonical q).toList (canonical t).toList ||
    isSub (canonical t).toList (canonical q).toList

/-- Modelled from the spec: the immutable built snapshot served read-only —
the ordered corpus titles and the similarity lookup on index pairs. The
score type is a parameter: rational scores make the serving layer
executable, real scores connect to the cosine build. -/
structure Snapshot (α : Type) where
  titles : List String
  sim : Nat → Nat → α

/-- One step of the shortest-title scan: a candidate replaces the current
best only when its title is strictly shorter. -/
def pickStep (best d : Nat × String) : Nat × String :=
  if d.2.length < best.2.length then d else best

/-- Modelled from the spec: among the fuzzy-match candidates (index,title),
pick the shortest title, breaking ties by the earliest index (the scan is in
index order and a candidate only replaces the current best when strictly
shorter). -/
def pickBest : List (Nat × String) → Option (Nat × String)
  | [] => none
  | c :: cs => some (cs.foldl pickStep c)

/-- The fuzzy-match candidate list of the resolver: every (index, title)
pair whose title satisfies the substring predicate, in index order. -/
def candidates {α : Type} (s : Snapshot α) (q : String) : List (Nat × String) :=
  (s.titles.enum).filter fun p => titleMatch q p.2

/-- Modelled from the spec: the query resolver. Normalize the input to its
canonical key; resolve by exact match against the canonical title keys when
one exists; otherwise scan all titles with the substring predicate and pick
the shortest-title match; `none` models `MovieNotFoundError`. -/
def resolve {α : Type} (s : Snapshot α) (q : String) : Option Nat :=
  match s.titles.findIdx? (fun t => canonical t = canonical q) with
  | some i => some i
  | none => (pickBest (candidates s q)).map Prod.fst

/-- Modelled from the spec: the ranking order of the top-K query — higher
similarity first, ties broken by lower index first. -/
def simOrder {α : Type} [LinearOrder α] (sim : Nat → α) (a b : Nat) : Prop :=
  sim b < sim a ∨ (sim a = sim b ∧ a ≤ b)

instance {α : Type} [LinearOrder α] (sim : Nat → α) : DecidableRel (simOrder sim) :=
  fun _ _ => inferInstanceAs (Decidable (_ ∨ _))

instance simOrder_total {α : Type} [LinearOrder α] (sim : Nat → α) :
    IsTotal Nat (simOrder sim) where
  total a b := by
    rcases lt_trichotomy (sim a) (sim b) with h | h | h
    · exact Or.inr (Or.inl h)
    · rcases Nat.le_total a b with hab | hab
      · exact Or.inl (Or.inr ⟨h, hab⟩)
      · exact Or.inr (Or.inr ⟨h.symm, hab⟩)
    · exact Or.inl (Or.inl h)

instance simOrder_trans {α : Type} [LinearOrder α] (sim : Nat → α) :
    IsTrans Nat (simOrder sim) where
  trans a b c hab hbc := by
    rcases hab with h1 | ⟨h1, h1i⟩ <;> rcases hbc with h2 | ⟨h2, h2i⟩
    · exact Or.inl (h2.trans h1)
    · exact Or.inl (h2 ▸ h1)
    · exact Or.inl (h1 ▸ h2)
    · exact Or.inr ⟨h1.trans h2, h1i.trans h2i⟩

/-- Modelled from the spec: the top-K query of the similarity engine —
all corpus indices except the query index itself, sorted by descending
similarity with ties broken by lower index, truncated to `k`. -/
def topK {α : Type} [LinearOrder α] (n : Nat) (sim : Nat → α) (i k : Nat) : List Nat :=
  (List.insertionSort (simOrder sim) ((List.range n).filter fun j => j ≠ i)).take k

/-- A query result row: display title and similarity score. -/
structure RecRow (α : Type) where
  title : String
  similarity_score : α
  deriving DecidableEq

/-- Modelled from the spec: the human-readable query-time error for an
unresolvable movie name (`MovieNotFoundError`). -/
def movieNotFoundMessage : String :=
  "Movie not found"

/-- Modelled from the spec: `recommend` — resolve the query to a corpus
index, run the top-K query, and map neighbor indices back to titled,
scored rows; an unresolvable query fails with `MovieNotFoundError`. -/
def recommend {α : Type} [LinearOrder α] (s : Snapshot α) (q : String) (k : Nat) :
    Except String (List (RecRow α)) :=
  match resolve s q with
  | none => Except.error movieNotFoundMessage
  | some i =>
    Except.ok ((topK s.titles.length (s.sim i) i k).map
      fun j => ⟨s.titles.getD j "", s.sim i j⟩)

/-- Modelled from the spec: `suggest` — the live-search companion: scan the
titles for case-insensitive containment of the partial string, capped at
`limit`, with no similarity computation. -/
def suggest {α : Type} (s : Snapshot α) (part : String) (limit : Nat) : List String :=
  (s.titles.filter fun t => containsCI t part).take limit

/-! ### Vectorizer and similarity engine. Modelled from the spec: the
TF-IDF build (`train_model.py`) is not among the sources. A profile is its
normalized token bag. -/

/-- A normalized per-item profile: the bag of lowercase tokens the record
normalizer emits (the spec's space-joined profile string, pre-split on
whitespace). -/
abbrev Profile : Type := List String

/-- Modelled from the spec: the standard English stop-word list excluded
before counting ("the", "and", "of", etc.); a representative fragment. -/
def stopWords : List String :=
  ["the", "and", "of", "a", "an", "in", "to", "is", "it", "for", "on", "with"]

/-- Tokens of a profile that survive stop-word filtering. -/
def filteredTokens (p : Profile) : List String :=
  List.filter (fun t => ¬ t ∈ stopWords) p

/-- Term frequency: occurrences of `term` among the retained tokens of an
item's profile. -/
def tf (term : String) (p : Profile) : Nat :=
  (filteredTokens p).count term

/-- Document frequency: number of corpus profiles whose retained tokens
contain `term`. -/
def df (corpus : List Profile) (term : String) : Nat :=
  (corpus.filter fun p => term ∈ filteredTokens p).length

/-- All distinct retained terms across the corpus, in first-occurrence
order. -/
def allTerms (corpus : List Profile) : List String :=
  (corpus.flatMap filteredTokens).dedup

/-- Modelled from the spec: the vocabulary-selection order — higher
document frequency first (ties keep the scan order, so insertion sort's
stability makes the cap deterministic). -/
def dfOrder (corpus : List Profile) (a b : String) : Prop :=
  df corpus b ≤ df corpus a

instance (corpus : List Profile) : DecidableRel (dfOrder corpus) :=
  fun _ _ => inferInstanceAs (Decidable (_ ≤ _))

instance dfOrder_total (corpus : List Profile) : IsTotal String (dfOrder corpus) where
  total a b := Nat.le_total (df corpus b) (df corpus a)

instance dfOrder_trans (corpus : List Profile) : IsTrans String (dfOrder corpus) where
  trans _ _ _ hab hbc := Nat.le_trans hbc hab

/-- Modelled from the spec: the fitted vocabulary — every distinct retained
term when at most `cap` exist, else the top `cap` terms by corpus-wide
document frequency. -/
def vocabulary (corpus : List Profile) (cap : Nat) : List String :=
  if (allTerms corpus).length ≤ cap then allTerms corpus
  else (List.insertionSort (dfOrder corpus) (allTerms corpus)).take cap

/-- Modelled from the spec: smoothed inverse document frequency,
`idf = log((1+N)/(1+df)) + 1`. -/
noncomputable def idf (N d : Nat) : ℝ :=
  Real.log ((1 + N) / (1 + d)) + 1

/-- Modelled from the spec: the TF-IDF weight of a term in an item,
`weight = tf × idf`. -/
noncomputable def weight (corpus : List Profile) (term : String) (p : Profile) : ℝ :=
  (tf term p : ℝ) * idf corpus.length (df corpus term)

/-- Modelled from the spec: the sparse weighted-term vector of an item —
one coordinate per vocabulary term. -/
noncomputable def tfidfVec (corpus : List Profile) (cap : Nat) (p : Profile) : List ℝ :=
  (vocabulary corpus cap).map fun t => weight corpus t p

/-- Coordinatewise dot product; trailing coordinates of the longer vector
are ignored (all build vectors share the vocabulary's dimension). -/
noncomputable def dot : List ℝ → List ℝ → ℝ
  | x :: xs, y :: ys => x * y + dot xs ys
  | _, _ => 0

/-- Modelled from the spec: cosine similarity,
`cosine(u,v) = (u·v)/(‖u‖ × ‖v‖)`, defined as `0` when either vector is
the zero vector. -/
noncomputable def cosine (u v : List ℝ) : ℝ :=
  if dot u u = 0 ∨ dot v v = 0 then 0
  else dot u v / (Real.sqrt (dot u u) * Real.sqrt (dot v v))

/-- Modelled from the spec: the built similarity matrix — cosine similarity
of the TF-IDF vectors of the items at indices `i` and `j`. Built once,
pure, read-only for serving. -/
noncomputable def buildMatrix (corpus : List Profile) (cap : Nat) (i j : Nat) : ℝ :=
  cosine (tfidfVec corpus cap (corpus.getD i []))
    (tfidfVec corpus cap (corpus.getD j []))

/-! ### Lemmas about the dot product and cosine similarity -/

theorem dot_nil_left (v : List ℝ) : dot [] v = 0 := by
  cases v <;> rfl

theorem dot_nil_right (u : List ℝ) : dot u [] = 0 := by
  cases u <;> rfl

theorem dot_cons (x y : ℝ) (xs ys : List ℝ) :
    dot (x :: xs) (y :: ys) = x * y + dot xs ys := rfl

theorem dot_comm (u : List ℝ) : ∀ v, dot u v = dot v u := by
  induction u with
  | nil => intro v; cases v <;> simp [dot_nil_left, dot_nil_right]
  | cons x xs ih =>
    intro v
    cases v with
    | nil => simp [dot_nil_left, dot_nil_right]
    | cons y ys => rw [dot_cons, dot_cons, ih, mul_comm]

theorem dot_self_nonneg (u : List ℝ) : 0 ≤ dot u u := by
  induction u with
  | nil => simp [dot_nil_left]
  | cons x xs ih => rw [dot_cons]; nlinarith [mul_self_nonneg x]

theorem dot_nonneg (u : List ℝ) :
    ∀ v, (∀ x ∈ u, 0 ≤ x) → (∀ y ∈ v, 0 ≤ y) → 0 ≤ dot u v := by
  induction u with
  | nil => intro v _ _; simp [dot_nil_left]
  | cons x xs ih =>
    intro v hu hv
    cases v with
    | nil => simp [dot_nil_right]
    | cons y ys =>
      rw [dot_cons]
      have hx : 0 ≤ x := hu x (List.mem_cons_self x xs)
      have hy : 0 ≤ y := hv y (List.mem_cons_self y ys)
      have := ih ys (fun a ha => hu a (List.mem_cons_of_mem x ha))
        (fun a ha => hv a (List.mem_cons_of_mem y ha))
      nlinarith

theorem dot_zero_left (u : List ℝ) (hu : ∀ x ∈ u, x = 0) : ∀ v, dot u v = 0 := by
  induction u with
  | nil => intro v; simp [dot_nil_left]
  | cons x xs ih =>
    intro v
    cases v with
    | nil => simp [dot_nil_right]
    | cons y ys =>
      rw [dot_cons, hu x (List.mem_cons_self x xs),
        ih (fun a ha => hu a (List.mem_cons_of_mem x ha)) ys]
      ring

/-- Cauchy–Schwarz for the list dot product. -/
theorem dot_sq_le (u : List ℝ) : ∀ v, dot u v ^ 2 ≤ dot u u * dot v v := by
  induction u with
  | nil =>
    intro v
    simp [dot_nil_left]
  | cons x xs ih =>
    intro v
    cases v with
    | nil => simp [dot_nil_right]
    | cons y ys =>
      have h := ih ys
      have ha := dot_self_nonneg xs
      have hb := dot_self_nonneg ys
      rw [dot_cons, dot_cons, dot_cons]
      rcases eq_or_lt_of_le hb with hb0 | hbpos
      · have hd : dot xs ys = 0 := by nlinarith [sq_nonneg (dot xs ys)]
        rw [hd, ← hb0]
        nlinarith [mul_nonneg ha (mul_self_nonneg y)]
      · nlinarith [sq_nonneg (dot ys ys * x - dot xs ys * y),
          mul_nonneg (sub_nonneg.mpr h)
            (add_nonneg (mul_self_nonneg y) hb), hbpos.le]

theorem cosine_comm (u v : List ℝ) : cosine u v = cosine v u := by
  have hcond : (dot u u = 0 ∨ dot v v = 0) = (dot v v = 0 ∨ dot u u = 0) :=
    propext or_comm
  simp only [cosine, hcond, dot_comm u v,
    mul_comm (Real.sqrt (dot u u)) (Real.sqrt (dot v v))]

theorem cosine_zero_of_zero (u v : List ℝ) (h : dot u u = 0 ∨ dot v v = 0) :
    cosine u v = 0 := by
  simp [cosine, h]

theorem cosine_self (u : List ℝ) (h : dot u u ≠ 0) : cosine u u = 1 := by
  rw [cosine, if_neg (by tauto), Real.mul_self_sqrt (dot_self_nonneg u), div_self h]

theorem cosine_nonneg (u v : List ℝ) (hu : ∀ x ∈ u, 0 ≤ x) (hv : ∀ y ∈ v, 0 ≤ y) :
    0 ≤ cosine u v := by
  rw [cosine]
  split
  · exact le_refl 0
  · exact div_nonneg (dot_nonneg u v hu hv)
      (mul_nonneg (Real.sqrt_nonneg _) (Real.sqrt_nonneg _))

theorem cosine_le_one (u v : List ℝ) (hu : ∀ x ∈ u, 0 ≤ x) (hv : ∀ y ∈ v, 0 ≤ y) :
    cosine u v ≤ 1 := by
  rw [cosine]
  split
  · exact zero_le_one
  · rename_i hk
    push_neg at hk
    obtain ⟨hu0, hv0⟩ := hk
    have hupos : 0 < dot u u := lt_of_le_of_ne (dot_self_nonneg u) (Ne.symm hu0)
    have hvpos : 0 < dot v v := lt_of_le_of_ne (dot_self_nonneg v) (Ne.symm hv0)
    have hden : 0 < Real.sqrt (dot u u) * Real.sqrt (dot v v) :=
      mul_pos (Real.sqrt_pos.mpr hupos) (Real.sqrt_pos.mpr hvpos)
    rw [div_le_one hden]
    have h1 : dot u v = Real.sqrt (dot u v ^ 2) :=
      (Real.sqrt_sq (dot_nonneg u v hu hv)).symm
    calc dot u v = Real.sqrt (dot u v ^ 2) := h1
      _ ≤ Real.sqrt (dot u u * dot v v) := Real.sqrt_le_sqrt (dot_sq_le u v)
      _ = Real.sqrt (dot u u) * Real.sqrt (dot v v) :=
          Real.sqrt_mul (dot_self_nonneg u) _

/-! ### Lemmas about TF-IDF weights and the built vectors -/

theorem df_le_length (corpus : List Profile) (term : String) :
    df corpus term ≤ corpus.length :=
  List.length_filter_le _ _

theorem one_le_idf (N d : Nat) (h : d ≤ N) : 1 ≤ idf N d := by
  have harg : (1 : ℝ) ≤ (1 + N) / (1 + d) := by
    rw [le_div_iff₀ (by positivity)]
    have : (d : ℝ) ≤ (N : ℝ) := Nat.cast_le.mpr h
    linarith
  have := Real.log_nonneg harg
  rw [idf]
  linarith

theorem weight_nonneg (corpus : List Profile) (term : String) (p : Profile) :
    0 ≤ weight corpus term p := by
  rw [weight]
  have h1 : (0 : ℝ) ≤ (tf term p : ℝ) := Nat.cast_nonneg _
  have h2 : 1 ≤ idf corpus.length (df corpus term) :=
    one_le_idf _ _ (df_le_length corpus term)
  nlinarith

theorem tfidfVec_nonneg (corpus : List Profile) (cap : Nat) (p : Profile) :
    ∀ x ∈ tfidfVec corpus cap p, 0 ≤ x := by
  intro x hx
  rw [tfidfVec] at hx
  obtain ⟨t, _, rfl⟩ := List.mem_map.mp hx
  exact weight_nonneg corpus t p

theorem tfidfVec_zero_of_empty (corpus : List Profile) (cap : Nat) (p : Profile)
    (h : filteredTokens p = []) : ∀ x ∈ tfidfVec corpus cap p, x = 0 := by
  intro x hx
  rw [tfidfVec] at hx
  obtain ⟨t, _, rfl⟩ := List.mem_map.mp hx
  rw [weight, tf, h, List.count_nil, Nat.cast_zero, zero_mul]

/-- C2: every built similarity matrix is symmetric — in the
exact-arithmetic embedding the entries at `(i,j)` and `(j,i)` are equal
(hence within any positive tolerance of each other). -/
theorem claim_matrix_symmetric (corpus : List Profile) (cap : Nat) (i j : Nat) :
    buildMatrix corpus cap i j = buildMatrix corpus cap j i := by
  rw [buildMatrix, buildMatrix, cosine_comm]

/-- C8: every entry of a built similarity matrix lies in `[0,1]` (exact
arithmetic), a consequence of all TF-IDF weights being non-negative; the
matrix is a pure function of the corpus, so the invariant persists
throughout serving. -/
theorem claim_matrix_bounded (corpus : List Profile) (cap : Nat) (i j : Nat) :
    (0 ≤ buildMatrix corpus cap i j ∧ buildMatrix corpus cap i j ≤ 1) ∧
    (∀ term p, 0 ≤ weight corpus term p) := by
  refine ⟨⟨?_, ?_⟩, fun term p => weight_nonneg corpus term p⟩
  · exact cosine_nonneg _ _ (tfidfVec_nonneg corpus cap _) (tfidfVec_nonneg corpus cap _)
  · exact cosine_le_one _ _ (tfidfVec_nonneg corpus cap _) (tfidfVec_nonneg corpus cap _)

/-- C4: the diagonal of the built matrix is exactly `1` when the item's
TF-IDF vector is non-zero and `0` when the item's profile is empty after
stop-word filtering; in general cosine is `0` whenever either argument is
the zero vector. -/
theorem claim_self_similarity (corpus : List Profile) (cap : Nat) (i : Nat) :
    (dot (tfidfVec corpus cap (corpus.getD i []))
        (tfidfVec corpus cap (corpus.getD i [])) ≠ 0 →
      buildMatrix corpus cap i i = 1) ∧
    (filteredTokens (corpus.getD i []) = [] → buildMatrix corpus cap i i = 0) ∧
    (∀ u v : List ℝ, dot u u = 0 ∨ dot v v = 0 → cosine u v = 0) := by
  refine ⟨fun h => cosine_self _ h, fun h => ?_,
    fun u v h => cosine_zero_of_zero u v h⟩
  have hz := tfidfVec_zero_of_empty corpus cap _ h
  exact cosine_zero_of_zero _ _ (Or.inl (dot_zero_left _ hz _))

/-- Witness for C4 at concrete corpora: a one-item corpus with profile
`["hello"]` has self-similarity `1`, a one-item corpus whose profile is the
stop word `["the"]` has self-similarity `0`, and cosine against a zero
vector is `0`. -/
theorem claim_self_similarity_witness :
    buildMatrix [["hello"]] 5 0 0 = 1 ∧ buildMatrix [["the"]] 5 0 0 = 0 ∧
    cosine [0] [1] = 0 := by
  have hvoc : vocabulary [["hello"]] 5 = ["hello"] := by decide
  have htf : tf "hello" ["hello"] = 1 := by decide
  have hdf : df [["hello"]] "hello" = 1 := by decide
  have hv : tfidfVec [["hello"]] 5 (([["hello"]] : List Profile).getD 0 []) = [1] := by
    simp only [List.getD, tfidfVec, hvoc, List.map, weight, htf, hdf, idf]
    norm_num
    exact htf
  refine ⟨(claim_self_similarity [["hello"]] 5 0).1 ?_,
    (claim_self_similarity [["the"]] 5 0).2.1 (by decide),
    (claim_self_similarity [["hello"]] 5 0).2.2 [0] [1]
      (Or.inl (by norm_num [dot_cons, dot_nil_left]))⟩
  rw [hv]
  norm_num [dot_cons, dot_nil_left]

/-! ### Lemmas about the vocabulary -/

theorem stopWord_not_filtered (s : String) (hs : s ∈ stopWords) (p : Profile) :
    s ∉ filteredTokens p := by
  intro hmem
  rw [filteredTokens, List.mem_filter] at hmem
  have h2 := hmem.2
  simp only [decide_eq_true_eq] at h2
  exact h2 hs

theorem stopWord_not_term (s : String) (hs : s ∈ stopWords) (corpus : List Profile) :
    s ∉ allTerms corpus := by
  intro h
  rw [allTerms, List.mem_dedup, List.mem_flatMap] at h
  obtain ⟨p, _, hp⟩ := h
  exact stopWord_not_filtered s hs p hp

theorem stopWord_tf_zero (s : String) (hs : s ∈ stopWords) (p : Profile) :
    tf s p = 0 := by
  rw [tf, List.count_eq_zero]
  exact stopWord_not_filtered s hs p

theorem stopWord_df_zero (corpus : List Profile) (s : String) (hs : s ∈ stopWords) :
    df corpus s = 0 := by
  rw [df]
  have h : (corpus.filter fun p => s ∈ filteredTokens p) = [] := by
    rw [List.filter_eq_nil_iff]
    intro p _
    simp only [decide_eq_true_eq]
    exact stopWord_not_filtered s hs p
  rw [h]
  rfl

theorem vocabulary_subset (corpus : List Profile) (cap : Nat) :
    ∀ t ∈ vocabulary corpus cap, t ∈ allTerms corpus := by
  intro t ht
  rw [vocabulary] at ht
  split at ht
  · exact ht
  · have h1 := (List.take_sublist cap _).subset ht
    rwa [List.mem_insertionSort] at h1

theorem vocabulary_nodup (corpus : List Profile) (cap : Nat) :
    (vocabulary corpus cap).Nodup := by
  rw [vocabulary]
  split
  · exact List.nodup_dedup _
  · exact ((List.perm_insertionSort _ _).symm.nodup
      (List.nodup_dedup _)).sublist (List.take_sublist _ _)

theorem vocabulary_length_le (corpus : List Profile) (cap : Nat) :
    (vocabulary corpus cap).length ≤ cap := by
  rw [vocabulary]
  split
  · assumption
  · rw [List.length_take]
    exact min_le_left _ _

theorem vocabulary_top_df (corpus : List Profile) (cap : Nat)
    (hc : ¬ (allTerms corpus).length ≤ cap) :
    ∀ t ∈ vocabulary corpus cap, ∀ t2 ∈ allTerms corpus,
      t2 ∉ vocabulary corpus cap → df corpus t2 ≤ df corpus t := by
  intro t ht t2 ht2 hnot
  have hvoc : vocabulary corpus cap =
      (List.insertionSort (dfOrder corpus) (allTerms corpus)).take cap := by
    rw [vocabulary, if_neg hc]
  have hsorted : (List.insertionSort (dfOrder corpus) (allTerms corpus)).Pairwise
      (dfOrder corpus) := List.sorted_insertionSort _ _
  have hsplit := List.take_append_drop cap
    (List.insertionSort (dfOrder corpus) (allTerms corpus))
  rw [← hsplit] at hsorted
  have hcross := (List.pairwise_append.mp hsorted).2.2
  have ht2L : t2 ∈ List.insertionSort (dfOrder corpus) (allTerms corpus) := by
    rw [List.mem_insertionSort]; exact ht2
  rw [← hsplit, List.mem_append] at ht2L
  rcases ht2L with h | h
  · exact absurd (hvoc ▸ h) hnot
  · exact hcross t (hvoc ▸ ht) t2 h

/-- C3: the vectorizer weighs each term as `tf × idf` with the smoothed
`idf = log((1+N)/(1+df)) + 1`; the vocabulary holds at most `cap` distinct
terms, chosen as the top terms by corpus-wide document frequency when more
exist; and no stop word is ever counted or retained. -/
theorem claim_tfidf_vectorizer (corpus : List Profile) (cap : Nat) :
    (∀ term p, weight corpus term p =
      (tf term p : ℝ) * (Real.log ((1 + corpus.length) / (1 + df corpus term)) + 1)) ∧
    (vocabulary corpus cap).length ≤ cap ∧
    (vocabulary corpus cap).Nodup ∧
    (∀ t ∈ vocabulary corpus cap, t ∈ allTerms corpus) ∧
    (¬ (allTerms corpus).length ≤ cap →
      ∀ t ∈ vocabulary corpus cap, ∀ t2 ∈ allTerms corpus,
        t2 ∉ vocabulary corpus cap → df corpus t2 ≤ df corpus t) ∧
    (∀ s ∈ stopWords,
      s ∉ vocabulary corpus cap ∧ (∀ p, tf s p = 0) ∧ df corpus s = 0) := by
  refine ⟨fun term p => rfl, vocabulary_length_le corpus cap,
    vocabulary_nodup corpus cap, vocabulary_subset corpus cap,
    vocabulary_top_df corpus cap, fun s hs => ⟨?_, stopWord_tf_zero s hs,
      stopWord_df_zero corpus s hs⟩⟩
  intro hmem
  exact stopWord_not_term s hs corpus (vocabulary_subset corpus cap s hmem)

/-- Witness for C3 on a concrete two-item corpus with cap 1: the retained
term "apple" (document frequency 2) dominates the dropped term "banana"
(document frequency 1), the stop word "the" is not retained, and the
vocabulary respects the cap. -/
theorem claim_tfidf_vectorizer_witness :
    df [["apple", "banana"], ["apple", "the"]] "banana" ≤
      df [["apple", "banana"], ["apple", "the"]] "apple" ∧
    "the" ∉ vocabulary [["apple", "banana"], ["apple", "the"]] 1 ∧
    (vocabulary [["apple", "banana"], ["apple", "the"]] 1).length ≤ 1 := by
  have H := claim_tfidf_vectorizer [["apple", "banana"], ["apple", "the"]] 1
  exact ⟨H.2.2.2.2.1 (by decide) "apple" (by decide) "banana" (by decide) (by decide),
    (H.2.2.2.2.2 "the" (by decide)).1, H.2.1⟩

/-- C9: on an input whose trimmed value is empty, `handleSearch` shows
"Please enter a movie name" and issues no request; a recommendation request
carries exactly the non-empty trimmed movie name. -/
theorem claim_empty_input_guard (input : String) :
    (trimStr input = "" →
      handleSearch input = SearchAction.showErr "Please enter a movie name") ∧
    (∀ m, handleSearch input = SearchAction.request m →
      m = trimStr input ∧ m ≠ "") := by
  constructor
  · intro h
    simp [handleSearch, h]
  · intro m hm
    by_cases h : trimStr input = ""
    · simp [handleSearch, h] at hm
    · simp only [handleSearch, if_neg h] at hm
      obtain ⟨hm⟩ := SearchAction.request.injEq .. ▸ hm
      injection hm with hm
      exact ⟨hm.symm, hm ▸ h⟩

/-- Witness for C9: whitespace-only input shows the error; "  Avatar "
issues a request for the trimmed name "Avatar". -/
theorem claim_empty_input_guard_witness :
    handleSearch "  " = SearchAction.showErr "Please enter a movie name" ∧
    ("Avatar" = trimStr "  Avatar " ∧ "Avatar" ≠ "") :=
  ⟨(claim_empty_input_guard "  ").1 (by decide),
    (claim_empty_input_guard "  Avatar ").2 "Avatar" (by decide)⟩

/-- C10: an input event with trimmed length < 2 leaves no scheduled
suggestion fetch and clears the list; with length ≥ 2 exactly the trimmed
query is scheduled; the new schedule never depends on the earlier pending
timer (it is always cancelled first), a scheduled fetch carries a query of
length ≥ 2, and firing consumes the single pending slot. -/
theorem claim_suggestion_debounce (st : UIState) (value : String) :
    ((onInput st value).pending =
      if 2 ≤ (trimStr value).length then some (trimStr value) else none) ∧
    ((trimStr value).length < 2 →
      (onInput st value).pending = none ∧ (onInput st value).suggestions = []) ∧
    (∀ q, (onInput st value).pending = some q → q = trimStr value ∧ 2 ≤ q.length) ∧
    (fireTimer (onInput st value)).2 = (onInput st value).pending ∧
    (fireTimer (onInput st value)).1.pending = none := by
  by_cases h : 2 ≤ (trimStr value).length
  · refine ⟨?_, ?_, ?_, rfl, rfl⟩
    · simp [onInput, h]
    · intro hlt; omega
    · intro q hq
      simp only [onInput, ge_iff_le, if_pos h] at hq
      injection hq with hq
      exact ⟨hq.symm, hq ▸ h⟩
  · refine ⟨?_, ?_, ?_, rfl, rfl⟩
    · simp [onInput, h]
    · intro _; constructor <;> simp [onInput, h]
    · intro q hq
      simp [onInput, h] at hq

/-- Witness for C10: a one-letter input clears everything; " ab " schedules
a fetch for "ab". -/
theorem claim_suggestion_debounce_witness :
    ((onInput ⟨some "old", ["x"]⟩ "a").pending = none ∧
      (onInput ⟨some "old", ["x"]⟩ "a").suggestions = []) ∧
    (onInput ⟨some "old", []⟩ " ab ").pending =
      (if 2 ≤ (trimStr " ab ").length then some (trimStr " ab ") else none) :=
  ⟨(claim_suggestion_debounce ⟨some "old", ["x"]⟩ "a").2.1 (by decide),
    (claim_suggestion_debounce ⟨some "old", []⟩ " ab ").1⟩

/-- C5 (amended): a query matching no title exactly nor by (two-way)
case-insensitive substring containment makes `recommend` fail with
`MovieNotFoundError`, surfaced as a human-readable message; the frontend
throws an `Error` carrying the server-supplied message, with fallbacks
"Failed to fetch recommendations" (response not ok) and "No recommendations
found" (ok but unsuccessful) — except that the catch block rewrites any
thrown message containing "fetch", which includes the non-ok fallback
itself, to "Cannot connect to server. Please ensure the backend is
running.", so the caller never sees the non-ok fallback verbatim. -/
theorem claim_not_found_error {α : Type} [LinearOrder α] (s : Snapshot α)
    (q : String) (k : Nat)
    (h : ∀ t ∈ s.titles, canonical t ≠ canonical q ∧ titleMatch q t = false) :
    recommend s q k = Except.error movieNotFoundMessage ∧
    (∀ resp : ApiResponse (RecRow α),
      (resp.ok = false → resp.error = none →
        getRecommendations resp = Except.error connectionErrorMessage) ∧
      (resp.ok = false → ∀ msg, resp.error = some msg →
        getRecommendations resp =
          (if containsFetch msg then Except.error connectionErrorMessage
           else Except.error msg)) ∧
      (resp.ok = true → resp.success = false → resp.error = none →
        getRecommendations resp = Except.error "No recommendations found") ∧
      (resp.ok = true → resp.success = false → ∀ msg, resp.error = some msg →
        getRecommendations resp =
          (if containsFetch msg then Except.error connectionErrorMessage
           else Except.error msg))) := by
  have hfe : containsFetch "Failed to fetch recommendations" = true := by decide
  have hnf : containsFetch "No recommendations found" = false := by decide
  constructor
  · have h1 : s.titles.findIdx? (fun t => canonical t = canonical q) = none := by
      rw [List.findIdx?_eq_none_iff]
      intro t ht
      simpa using (h t ht).1
    have h2 : candidates s q = [] := by
      rw [candidates, List.filter_eq_nil_iff]
      intro p hp
      have hmem : p.2 ∈ s.titles := by
        rw [List.mem_enum_iff_getElem?] at hp
        exact List.getElem?_mem hp
      simp [(h _ hmem).2]
    simp [recommend, resolve, h1, h2, pickBest]
  · intro resp
    refine ⟨?_, ?_, ?_, ?_⟩
    · intro hok herr
      simp [getRecommendations, hok, herr, hfe]
    · intro hok msg hmsg
      simp [getRecommendations, hok, hmsg]
    · intro hok hsucc herr
      simp [getRecommendations, hok, hsucc, herr, hnf]
    · intro hok hsucc msg hmsg
      simp [getRecommendations, hok, hsucc, hmsg]

/-- Counterexample to C5 as stated: on a non-ok response carrying no server
error message, the catch block of `getRecommendations` rewrites the
fallback "Failed to fetch recommendations" — whose text contains "fetch" —
to the connection-failure message, so the caller never receives that
fallback. -/
theorem claim_not_found_error_counterexample :
    getRecommendations (ApiResponse.mk false false none ([] : List (RecRow ℚ))) =
      Except.error connectionErrorMessage ∧
    getRecommendations (ApiResponse.mk false false none ([] : List (RecRow ℚ))) ≠
      Except.error "Failed to fetch recommendations" := by
  refine ⟨rfl, fun hcontra => ?_⟩
  rw [show getRecommendations (ApiResponse.mk false false none ([] : List (RecRow ℚ))) =
    Except.error connectionErrorMessage from rfl] at hcontra
  injection hcontra with hmsg
  exact absurd hmsg (by decide)

/-- Witness for C5: on a snapshot holding only "Avatar", the query "zzz"
fails with the not-found message. -/
theorem claim_not_found_error_witness :
    recommend (Snapshot.mk ["Avatar"] fun _ _ => (0 : ℚ)) "zzz" 10 =
      Except.error movieNotFoundMessage :=
  (claim_not_found_error (Snapshot.mk ["Avatar"] fun _ _ => (0 : ℚ)) "zzz" 10
    (by decide)).1

/-- C7: `suggest` returns only corpus titles containing the partial string
case-insensitively, returns at most `limit` of them, and reads nothing but
the titles (no similarity computation); the frontend displays every title a
successful non-empty `/search` response returns. -/
theorem claim_suggest_scan {α : Type} (s : Snapshot α) (part : String) (limit : Nat) :
    (∀ t ∈ suggest s part limit, t ∈ s.titles ∧ containsCI t part = true) ∧
    (suggest s part limit).length ≤ limit ∧
    (∀ s2 : Snapshot α, s2.titles = s.titles →
      suggest s2 part limit = suggest s part limit) ∧
    (∀ (success : Bool) (movies : List String),
      success = true → movies ≠ [] → shownSuggestions success movies = movies) := by
  refine ⟨?_, ?_, ?_, ?_⟩
  · intro t ht
    rw [suggest] at ht
    have h1 := List.mem_of_mem_take ht
    rw [List.mem_filter] at h1
    exact ⟨h1.1, h1.2⟩
  · rw [suggest, List.length_take]
    exact min_le_left _ _
  · intro s2 hs2
    rw [suggest, suggest, hs2]
  · intro success movies h1 h2
    have : 0 < movies.length := List.length_pos.mpr h2
    simp [shownSuggestions, h1, this]

/-- Witness for C7: on titles ["Avatar", "Up"], suggesting for "ava" with
limit 5 returns only "Avatar", and a successful response ["Avatar"] is
displayed in full. -/
theorem claim_suggest_scan_witness :
    ("Avatar" ∈ (Snapshot.mk ["Avatar", "Up"] fun _ _ => (0 : ℚ)).titles ∧
      containsCI "Avatar" "ava" = true) ∧
    shownSuggestions true ["Avatar"] = ["Avatar"] :=
  ⟨(claim_suggest_scan (Snapshot.mk ["Avatar", "Up"] fun _ _ => (0 : ℚ)) "ava" 5).1
      "Avatar" (by decide),
    (claim_suggest_scan (Snapshot.mk ["Avatar", "Up"] fun _ _ => (0 : ℚ)) "ava" 5).2.2.2
      true ["Avatar"] rfl (by decide)⟩

/-! ### Lemmas about the shortest-title scan and the resolver -/

theorem foldl_pickStep_spec :
    ∀ (l : List (Nat × String)) (acc : Nat × String),
      (l.foldl pickStep acc = acc ∨ l.foldl pickStep acc ∈ l) ∧
      (l.foldl pickStep acc).2.length ≤ acc.2.length ∧
      (∀ d ∈ l, (l.foldl pickStep acc).2.length ≤ d.2.length) ∧
      ((l.foldl pickStep acc).2.length = acc.2.length → l.foldl pickStep acc = acc) ∧
      ((∀ d ∈ l, acc.1 < d.1) → l.Pairwise (fun a b => a.1 < b.1) →
        ∀ d ∈ l, (l.foldl pickStep acc).2.length = d.2.length →
          (l.foldl pickStep acc).1 ≤ d.1)
  | [], acc => by
    refine ⟨Or.inl rfl, le_refl _, by simp, fun _ => rfl, by simp⟩
  | d :: l, acc => by
    rw [List.foldl_cons]
    obtain ⟨ih1, ih2, ih3, ih4, ih5⟩ := foldl_pickStep_spec l (pickStep acc d)
    by_cases hlt : d.2.length < acc.2.length
    · rw [pickStep, if_pos hlt] at ih1 ih2 ih3 ih4 ih5 ⊢
      refine ⟨?_, ih2.trans hlt.le, ?_, ?_, ?_⟩
      · rcases ih1 with h | h
        · exact Or.inr (by rw [h]; exact List.mem_cons_self d l)
        · exact Or.inr (List.mem_cons_of_mem d h)
      · intro e he
        rcases List.mem_cons.mp he with rfl | he2
        · exact ih2
        · exact ih3 e he2
      · intro hEq
        omega
      · intro hlo hpw e he hlen
        obtain ⟨hd, hpl⟩ := List.pairwise_cons.mp hpw
        rcases List.mem_cons.mp he with rfl | he2
        · rw [ih4 hlen]
        · exact ih5 hd hpl e he2 hlen
    · rw [pickStep, if_neg hlt] at ih1 ih2 ih3 ih4 ih5 ⊢
      have hda : acc.2.length ≤ d.2.length := Nat.le_of_not_lt hlt
      refine ⟨?_, ih2, ?_, ih4, ?_⟩
      · rcases ih1 with h | h
        · exact Or.inl h
        · exact Or.inr (List.mem_cons_of_mem d h)
      · intro e he
        rcases List.mem_cons.mp he with rfl | he2
        · exact ih2.trans hda
        · exact ih3 e he2
      · intro hlo hpw e he hlen
        obtain ⟨_, hpl⟩ := List.pairwise_cons.mp hpw
        rcases List.mem_cons.mp he with rfl | he2
        · have h1 : (l.foldl pickStep acc).2.length = acc.2.length := by omega
          rw [ih4 h1]
          exact (hlo e (List.mem_cons_self e l)).le
        · exact ih5 (fun x hx => hlo x (List.mem_cons_of_mem d hx)) hpl e he2 hlen

theorem candidates_pairwise {α : Type} (s : Snapshot α) (q : String) :
    (candidates s q).Pairwise (fun a b => a.1 < b.1) := by
  have h1 : (s.titles.enum.map Prod.fst).Pairwise (· < ·) := by
    rw [List.enum_map_fst]
    exact List.pairwise_lt_range _
  exact (List.pairwise_map.mp h1).filter _

theorem mem_candidates_iff {α : Type} (s : Snapshot α) (q : String) (p : Nat × String) :
    p ∈ candidates s q ↔
      (p.1 < s.titles.length ∧ s.titles.getD p.1 "" = p.2 ∧
        titleMatch q p.2 = true) := by
  rw [candidates, List.mem_filter, List.mem_enum_iff_getElem?]
  constructor
  · rintro ⟨h1, h2⟩
    have hlt : p.1 < s.titles.length := by
      by_contra hge
      rw [List.getElem?_eq_none (Nat.le_of_not_lt hge)] at h1
      exact Option.noConfusion h1
    refine ⟨hlt, ?_, h2⟩
    rw [List.getElem?_eq_getElem hlt] at h1
    rw [List.getD_eq_getElem s.titles "" hlt, Option.some_inj.mp h1]
  · rintro ⟨h1, h2, h3⟩
    refine ⟨?_, h3⟩
    rw [List.getElem?_eq_getElem h1, ← h2, List.getD_eq_getElem s.titles "" h1]

/-- C6: the resolver normalizes the input by trim + lowercase to its
canonical key, resolves by the first exact canonical-key match when one
exists, and only otherwise falls back to case-insensitive substring
matching, picking the shortest-title match with ties broken by the lowest
index; the frontend's `handleSearch` sends the trimmed input as
`movie_name`. -/
theorem claim_query_resolution {α : Type} (s : Snapshot α) (q : String) :
    (canonical q = lowerStr (trimStr q)) ∧
    (∀ i, i < s.titles.length →
      canonical (s.titles.getD i "") = canonical q →
      (∀ j, j < i → canonical (s.titles.getD j "") ≠ canonical q) →
      resolve s q = some i) ∧
    ((∀ t ∈ s.titles, canonical t ≠ canonical q) →
      ∀ m, resolve s q = some m →
        m < s.titles.length ∧ titleMatch q (s.titles.getD m "") = true ∧
        (∀ j, j < s.titles.length → titleMatch q (s.titles.getD j "") = true →
          (s.titles.getD m "").length ≤ (s.titles.getD j "").length ∧
          ((s.titles.getD j "").length = (s.titles.getD m "").length → m ≤ j))) ∧
    ((∀ t ∈ s.titles, canonical t ≠ canonical q) →
      (∃ j, j < s.titles.length ∧ titleMatch q (s.titles.getD j "") = true) →
      ∃ m, resolve s q = some m) ∧
    (∀ input m, handleSearch input = SearchAction.request m → m = trimStr input) := by
  have hnone : (∀ t ∈ s.titles, canonical t ≠ canonical q) →
      s.titles.findIdx? (fun t => canonical t = canonical q) = none := by
    intro hnoex
    rw [List.findIdx?_eq_none_iff]
    intro t ht
    simpa using hnoex t ht
  refine ⟨rfl, ?_, ?_, ?_, ?_⟩
  · intro i hi hcan hmin
    have hf : s.titles.findIdx? (fun t => canonical t = canonical q) = some i := by
      rw [List.findIdx?_eq_some_iff_getElem]
      refine ⟨hi, ?_, ?_⟩
      · simp only [decide_eq_true_eq]
        rwa [List.getD_eq_getElem s.titles "" hi] at hcan
      · intro j hj
        have hjl : j < s.titles.length := Nat.lt_trans hj hi
        have := hmin j hj
        rw [List.getD_eq_getElem s.titles "" hjl] at this
        simpa using this
    simp [resolve, hf]
  · intro hnoex m hm
    rw [resolve, hnone hnoex] at hm
    cases hc : candidates s q with
    | nil => rw [hc] at hm; simp [pickBest] at hm
    | cons c cs =>
      rw [hc] at hm
      simp only [pickBest, Option.map_some', Option.some.injEq] at hm
      obtain ⟨f1, f2, f3, f4, f5⟩ := foldl_pickStep_spec cs c
      have hpw := candidates_pairwise s q
      rw [hc] at hpw
      obtain ⟨hlo, hpl⟩ := List.pairwise_cons.mp hpw
      have hbm : cs.foldl pickStep c ∈ candidates s q := by
        rw [hc]
        rcases f1 with h | h
        · rw [h]; exact List.mem_cons_self c cs
        · exact List.mem_cons_of_mem c h
      obtain ⟨hblt, hbtitle, hbmatch⟩ := (mem_candidates_iff s q _).mp hbm
      subst hm
      refine ⟨hblt, by rw [hbtitle]; exact hbmatch, ?_⟩
      intro j hj hjm
      have hdc : (j, s.titles.getD j "") ∈ candidates s q :=
        (mem_candidates_iff s q _).mpr ⟨hj, rfl, hjm⟩
      rw [hc] at hdc
      constructor
      · rw [hbtitle]
        rcases List.mem_cons.mp hdc with hdc2 | hdc2
        · have : c.2 = s.titles.getD j "" := by rw [← hdc2]
          rw [← this]
          exact f2
        · exact f3 _ hdc2
      · intro hlen
        rw [hbtitle] at hlen
        rcases List.mem_cons.mp hdc with hdc2 | hdc2
        · have hc2 : c.2 = s.titles.getD j "" := by rw [← hdc2]
          have hbc : cs.foldl pickStep c = c := f4 (by rw [hc2]; omega)
          have : (cs.foldl pickStep c).1 = c.1 := by rw [hbc]
          rw [this, ← hdc2]
        · exact f5 hlo hpl _ hdc2 hlen.symm
  · intro hnoex hex
    obtain ⟨j, hj, hjm⟩ := hex
    have hdc : (j, s.titles.getD j "") ∈ candidates s q :=
      (mem_candidates_iff s q _).mpr ⟨hj, rfl, hjm⟩
    cases hc : candidates s q with
    | nil => rw [hc] at hdc; exact absurd hdc (List.not_mem_nil _)
    | cons c cs =>
      exact ⟨(cs.foldl pickStep c).1, by simp [resolve, hnone hnoex, hc, pickBest]⟩
  · intro input m hm
    by_cases h : trimStr input = ""
    · simp [handleSearch, h] at hm
    · simp only [handleSearch, if_neg h] at hm
      injection hm with hm
      exact hm.symm

/-- Witness for C6 on concrete snapshots: "avatar" exactly matches the
title "Avatar" at index 1; the fallback query "av" yields a valid matching
index on titles ["Avatar", "Ava"]; and handleSearch(" Avatar ") requests
the trimmed "Avatar". -/
theorem claim_query_resolution_witness :
    resolve (Snapshot.mk ["Up", "Avatar"] fun _ _ => (0 : ℚ)) "avatar" = some 1 ∧
    1 < (Snapshot.mk ["Avatar", "Ava"] fun _ _ => (0 : ℚ)).titles.length ∧
    "Avatar" = trimStr " Avatar " :=
  ⟨(claim_query_resolution (Snapshot.mk ["Up", "Avatar"] fun _ _ => (0 : ℚ))
      "avatar").2.1 1 (by decide) (by decide) (by decide),
    ((claim_query_resolution (Snapshot.mk ["Avatar", "Ava"] fun _ _ => (0 : ℚ))
      "av").2.2.1 (by decide) 1 (by decide)).1,
    (claim_query_resolution (Snapshot.mk ["Up", "Avatar"] fun _ _ => (0 : ℚ))
      "avatar").2.2.2.2 " Avatar " "Avatar" (by decide)⟩

/-! ### Lemmas about the top-K query and recommend -/

/-- Any resolved index is a valid corpus index. -/
theorem resolve_lt {α : Type} (s : Snapshot α) (q : String) (j : Nat)
    (h : resolve s q = some j) : j < s.titles.length := by
  rw [resolve] at h
  cases hf : s.titles.findIdx? (fun t => canonical t = canonical q) with
  | some i =>
    rw [hf] at h
    injection h with h
    obtain ⟨hlt, -, -⟩ := List.findIdx?_eq_some_iff_getElem.mp hf
    omega
  | none =>
    rw [hf] at h
    cases hc : candidates s q with
    | nil => rw [hc] at h; simp [pickBest] at h
    | cons c cs =>
      rw [hc] at h
      simp only [pickBest, Option.map_some', Option.some.injEq] at h
      obtain ⟨f1, -, -, -, -⟩ := foldl_pickStep_spec cs c
      have hbm : cs.foldl pickStep c ∈ candidates s q := by
        rw [hc]
        rcases f1 with h2 | h2
        · rw [h2]; exact List.mem_cons_self c cs
        · exact List.mem_cons_of_mem c h2
      obtain ⟨hblt, -, -⟩ := (mem_candidates_iff s q _).mp hbm
      omega

/-- The base list of the top-K query: all indices below `n` except `i`. -/
theorem topK_base_length (n i : Nat) (hi : i < n) :
    ((List.range n).filter fun j => j ≠ i).length = n - 1 := by
  have hcongr : ((List.range n).filter fun j => j ≠ i) =
      (List.range n).filter (fun j => j != i) := by
    apply List.filter_congr
    intro x _
    by_cases h : x = i <;> simp [h]
  rw [hcongr, ← (List.nodup_range n).erase_eq_filter i,
    List.length_erase_of_mem (List.mem_range.mpr hi), List.length_range]

theorem mem_topK {α : Type} [LinearOrder α] (n : Nat) (sim : Nat → α) (i k j : Nat)
    (h : j ∈ topK n sim i k) : j < n ∧ j ≠ i := by
  rw [topK] at h
  have h1 := List.mem_of_mem_take h
  rw [List.mem_insertionSort, List.mem_filter] at h1
  refine ⟨List.mem_range.mp h1.1, ?_⟩
  have := h1.2
  simpa using this

theorem topK_nodup {α : Type} [LinearOrder α] (n : Nat) (sim : Nat → α) (i k : Nat) :
    (topK n sim i k).Nodup := by
  rw [topK]
  refine List.Nodup.sublist (List.take_sublist _ _) ?_
  exact (List.perm_insertionSort _ _).symm.nodup ((List.nodup_range n).filter _)

theorem topK_sorted {α : Type} [LinearOrder α] (n : Nat) (sim : Nat → α) (i k : Nat) :
    (topK n sim i k).Pairwise (simOrder sim) := by
  rw [topK]
  exact (List.sorted_insertionSort _ _).sublist (List.take_sublist _ _)

theorem topK_length {α : Type} [LinearOrder α] (n : Nat) (sim : Nat → α) (i k : Nat)
    (hi : i < n) (hk : k < n) : (topK n sim i k).length = k := by
  rw [topK, List.length_take, ((List.perm_insertionSort (simOrder sim)
    ((List.range n).filter fun j => j ≠ i))).length_eq, topK_base_length n i hi]
  omega

/-- C1: the top-K query returns at most `k` indices, never the query index,
sorted in non-increasing similarity order with ties broken by lower index
first, all inside the corpus; consequently `recommend` never returns the
query item and returns exactly `k` distinct titles when the corpus has more
than `k` items. -/
theorem claim_topk_ranking {α : Type} [LinearOrder α] (s : Snapshot α)
    (hnd : s.titles.Nodup) (i k : Nat) :
    (topK s.titles.length (s.sim i) i k).length ≤ k ∧
    i ∉ topK s.titles.length (s.sim i) i k ∧
    (topK s.titles.length (s.sim i) i k).Pairwise
      (fun a b => s.sim i b < s.sim i a ∨ (s.sim i a = s.sim i b ∧ a < b)) ∧
    (∀ j ∈ topK s.titles.length (s.sim i) i k, j < s.titles.length) ∧
    (∀ q recs, recommend s q k = Except.ok recs →
      ∀ j, resolve s q = some j →
        s.titles.getD j "" ∉ recs.map RecRow.title ∧
        (recs.map RecRow.title).Nodup ∧
        (k < s.titles.length → recs.length = k)) := by
  refine ⟨?_, ?_, ?_, ?_, ?_⟩
  · rw [topK, List.length_take]
    exact min_le_left _ _
  · intro hmem
    exact (mem_topK _ _ _ _ _ hmem).2 rfl
  · have h1 := (topK_sorted s.titles.length (s.sim i) i k).and
      (topK_nodup s.titles.length (s.sim i) i k)
    refine h1.imp ?_
    rintro a b ⟨hord, hne⟩
    rcases hord with h | ⟨heq, hle⟩
    · exact Or.inl h
    · exact Or.inr ⟨heq, lt_of_le_of_ne hle hne⟩
  · intro j hj
    exact (mem_topK _ _ _ _ _ hj).1
  · intro q recs hrec j hj
    rw [recommend, hj] at hrec
    injection hrec with hrec
    have hjlt := resolve_lt s q j hj
    have hmap : recs.map RecRow.title =
        (topK s.titles.length (s.sim j) j k).map fun l => s.titles.getD l "" := by
      rw [← hrec, List.map_map]
      rfl
    have hinj : ∀ x ∈ topK s.titles.length (s.sim j) j k,
        ∀ y ∈ topK s.titles.length (s.sim j) j k,
        s.titles.getD x "" = s.titles.getD y "" → x = y := by
      intro x hx y hy hxy
      have hxlt := (mem_topK _ _ _ _ _ hx).1
      have hylt := (mem_topK _ _ _ _ _ hy).1
      rw [List.getD_eq_getElem s.titles "" hxlt,
        List.getD_eq_getElem s.titles "" hylt] at hxy
      exact (List.Nodup.getElem_inj_iff hnd).mp hxy
    refine ⟨?_, ?_, ?_⟩
    · rw [hmap]
      intro hmem
      obtain ⟨l, hl, hleq⟩ := List.mem_map.mp hmem
      have hllt := (mem_topK _ _ _ _ _ hl).1
      have hlne := (mem_topK _ _ _ _ _ hl).2
      rw [List.getD_eq_getElem s.titles "" hllt,
        List.getD_eq_getElem s.titles "" hjlt] at hleq
      exact hlne ((List.Nodup.getElem_inj_iff hnd).mp hleq)
    · rw [hmap]
      exact (topK_nodup s.titles.length (s.sim j) j k).map_on hinj
    · intro hk
      rw [← hrec, List.length_map]
      exact topK_length s.titles.length (s.sim j) j k hjlt hk

/-- Witness for C1 on a concrete three-title snapshot with similarity
`sim i j = j`: the top-1 list at index 0 omits 0, and recommending "A"
with k = 1 yields the single distinct title "C". -/
theorem claim_topk_ranking_witness :
    (0 : Nat) ∉ topK (Snapshot.mk ["A", "B", "C"] fun _ l => (l : ℚ)).titles.length
      ((Snapshot.mk ["A", "B", "C"] fun _ l => (l : ℚ)).sim 0) 0 1 ∧
    ((Snapshot.mk ["A", "B", "C"] fun _ l => (l : ℚ)).titles.getD 0 "" ∉
      ([⟨"C", (2 : ℚ)⟩] : List (RecRow ℚ)).map RecRow.title) ∧
    (([⟨"C", (2 : ℚ)⟩] : List (RecRow ℚ)) : List (RecRow ℚ)).length = 1 := by
  have P := claim_topk_ranking (Snapshot.mk ["A", "B", "C"] fun _ l => (l : ℚ))
    (by decide) 0 1
  have hrec : recommend (Snapshot.mk ["A", "B", "C"] fun _ l => (l : ℚ)) "A" 1 =
      Except.ok ([⟨"C", (2 : ℚ)⟩] : List (RecRow ℚ)) := by rfl
  have hres : resolve (Snapshot.mk ["A", "B", "C"] fun _ l => (l : ℚ)) "A" = some 0 := by
    decide
  have Q := P.2.2.2.2 "A" ([⟨"C", (2 : ℚ)⟩] : List (RecRow ℚ)) hrec 0 hres
  exact ⟨P.2.1, Q.1, Q.2.2 (by decide)⟩

end MovieRec
